import Mathlib

/-!
# xoroshiro128+ bit generator and the legacy Gaussian cache

A shallow embedding of `core_prng/src/xoroshiro128/xoroshiro128.h` and of the
interface declared in `randomgen/src/legacy/distributions-boxmuller.h`.

Machine words are natural numbers; every operation that can leave the width
of its C type is reduced modulo `2 ^ 64` (or `2 ^ 32`) at the place where the
C expression is truncated.
-/

namespace Randomgen

/-! ## Definitions -/

/-- The C struct `xoroshiro128_state`: the array `s[2]` is the pair `s`,
`has_uint32` is a C `int`, `uinteger` a `uint32_t`. -/
structure xoroshiro128_state where
  s : Nat × Nat
  has_uint32 : Int
  uinteger : Nat
deriving DecidableEq, Repr

/-- A state whose fields fit their C types. -/
def xoroshiro128_state.wf (st : xoroshiro128_state) : Prop :=
  st.s.1 < 2 ^ 64 ∧ st.s.2 < 2 ^ 64 ∧ st.uinteger < 2 ^ 32

/-- `rotl`: `(x << k) | (x >> (64 - k))` on `uint64_t`. -/
def rotl (x : Nat) (k : Nat) : Nat :=
  ((x <<< k) % 2 ^ 64) ||| (x >>> (64 - k))

/-- `xoroshiro128_next` on the two words `s[0], s[1]`: the returned value and
the words written back. -/
def xoroshiro128_next (s : Nat × Nat) : Nat × (Nat × Nat) :=
  let s0 := s.1
  let s1 := s.2
  let result := (s0 + s1) % 2 ^ 64
  let s1 := s1 ^^^ s0
  (result, (rotl s0 55 ^^^ s1 ^^^ ((s1 <<< 14) % 2 ^ 64), rotl s1 36))

/-- `xoroshiro128_next64`: one `xoroshiro128_next` on `state->s`. -/
def xoroshiro128_next64 (state : xoroshiro128_state) : Nat × xoroshiro128_state :=
  let r := xoroshiro128_next state.s
  (r.1, { state with s := r.2 })

/-- `xoroshiro128_next32`: serve the cached half when `has_uint32` is set,
otherwise draw 64 bits, cache the low half and return the high half. -/
def xoroshiro128_next32 (state : xoroshiro128_state) : Nat × xoroshiro128_state :=
  if state.has_uint32 ≠ 0 then
    (state.uinteger, { state with has_uint32 := 0 })
  else
    let r := xoroshiro128_next state.s
    let next := r.1
    ((next >>> 32) % 2 ^ 32,
      { s := r.2, has_uint32 := 1, uinteger := (next &&& 0xffffffff) % 2 ^ 32 })

/-- The state-word transition of one `xoroshiro128_next` call. -/
def step (s : Nat × Nat) : Nat × Nat := (xoroshiro128_next s).2

/-- Outputs of `n` consecutive `xoroshiro128_next64` calls, with the final state. -/
def run64 : Nat → xoroshiro128_state → List Nat × xoroshiro128_state
  | 0, st => ([], st)
  | n + 1, st =>
    let r := xoroshiro128_next64 st
    let rest := run64 n r.2
    (r.1 :: rest.1, rest.2)

/-- Outputs of `n` consecutive `xoroshiro128_next32` calls, with the final state. -/
def run32 : Nat → xoroshiro128_state → List Nat × xoroshiro128_state
  | 0, st => ([], st)
  | n + 1, st =>
    let r := xoroshiro128_next32 st
    let rest := run32 n r.2
    (r.1 :: rest.1, rest.2)

/-- High 32 bits of a 64-bit draw. -/
def hi32 (x : Nat) : Nat := x / 2 ^ 32

/-- Low 32 bits of a 64-bit draw. -/
def lo32 (x : Nat) : Nat := x % 2 ^ 32

/-- The sequence `hi(x1), lo(x1), hi(x2), lo(x2), ...` of the halves of a list of draws. -/
def halves : List Nat → List Nat
  | [] => []
  | x :: xs => hi32 x :: lo32 x :: halves xs

/-- Componentwise exclusive or of two pairs of state words. -/
def xor2 (a b : Nat × Nat) : Nat × Nat := (a.1 ^^^ b.1, a.2 ^^^ b.2)

/-- The state `(1, 0)` from which the orbit of the transition is generated. -/
def v0 : Nat × Nat := (1, 0)

/-- The polynomial of degree 128 over GF(2) that annihilates the transition on the orbit of
`v0` (the characteristic polynomial of the recurrence), bit `i` being the coefficient of
`x ^ i`. -/
def charPoly : Nat := 0x100653ced7f29f88a5fd66762f0e1c001

/-- Value at the state `s` of the polynomial `q` (its `n` low coefficients) in the
transition: the exclusive or of `step^[j] s` over the set bits `j < n` of `q`. -/
def evalPoly : Nat → Nat → Nat × Nat → Nat × Nat
  | 0, _, _ => (0, 0)
  | n + 1, q, s => xor2 (if q.testBit 0 then s else (0, 0)) (evalPoly n (q / 2) (step s))

/-- Multiplication by `x` modulo `charPoly` of a polynomial of degree below 128. -/
def mulX (q : Nat) : Nat :=
  if (q <<< 1).testBit 128 then (q <<< 1) ^^^ charPoly else q <<< 1

/-- Product modulo `charPoly` of the `n` low coefficients of `a` with `b`. -/
def mulPoly : Nat → Nat → Nat → Nat
  | 0, _, _ => 0
  | n + 1, a, b => (if a.testBit 0 then b else 0) ^^^ mulPoly n (a / 2) (mulX b)

/-- Square-and-multiply: `acc * b ^ e` modulo `charPoly`, reading `f` bits of `e`. -/
def powPoly : Nat → Nat → Nat → Nat → Nat
  | 0, _, _, acc => acc
  | f + 1, e, b, acc =>
    powPoly f (e / 2) (mulPoly 128 b b) (if e % 2 = 1 then mulPoly 128 acc b else acc)

/-- A pair of 64-bit words. -/
def Word2 (s : Nat × Nat) : Prop := s.1 < 2 ^ 64 ∧ s.2 < 2 ^ 64

/-- The polynomial `q` of degree below 128 stands for `step^[m] v0`. -/
def Rep (q m : Nat) : Prop := q < 2 ^ 128 ∧ evalPoly 128 q v0 = step^[m] v0

/-- The period `2^128 - 1` claimed for the generator. -/
def period : Nat := 2 ^ 128 - 1

/-- The prime factors of `2^128 - 1`. -/
def periodFactors : List Nat :=
  [3, 5, 17, 257, 641, 65537, 274177, 6700417, 67280421310721]

/-- The 128-bit number whose low and high halves are the two state words. -/
def enc (s : Nat × Nat) : Nat := s.1 + 2 ^ 64 * s.2

/-- Square-and-multiply `acc * a ^ e` modulo `p`, reading `f` bits of `e`. -/
def powMod : Nat → Nat → Nat → Nat → Nat → Nat
  | 0, _, _, _, acc => acc
  | f + 1, a, e, p, acc =>
    powMod f (a * a % p) (e / 2) p (if e % 2 = 1 then acc * a % p else acc)

/-- Modelled from the spec: the two fixed 64-bit jump constants, which the header
`xoroshiro128.h` does not contain; the spec calls them compile-time constants specific to the
recurrence. Read low word first they are the coefficients of `x ^ (2^64)` modulo `charPoly`. -/
def JUMP : List Nat := [0xbeac0467eba5facb, 0xd86b048b86aa9922]

/-- Modelled from the spec: the bit loop of `jump()` over one 64-bit constant `J`, whose body
is not in `xoroshiro128.h`. For each of `n` bits starting at bit `b`: exclusive-or the current
state into the accumulator `r.1` when the bit is set, then advance the state `r.2` by one
step whether or not it contributed. -/
def jump_word (J : Nat) : Nat → Nat → (Nat × Nat) × (Nat × Nat) → (Nat × Nat) × (Nat × Nat)
  | 0, _, r => r
  | n + 1, b, r =>
    jump_word J n (b + 1) (if J.testBit b then xor2 r.1 r.2 else r.1, step r.2)

/-- Modelled from the spec: the body of `jump()` for a given table of constants; the header
`xoroshiro128.h` declares `xoroshiro128_jump` without a body. The accumulator starts at zero,
the constants are folded in one after the other, least significant bit first, and the
accumulator becomes the new state words. -/
def xoroshiro128_jump_with (consts : List Nat) (state : xoroshiro128_state) :
    xoroshiro128_state :=
  let r := consts.foldl (fun r J => jump_word J 64 0 r) ((0, 0), state.s)
  { state with s := r.1 }

/-- Modelled from the spec: `xoroshiro128_jump`, declared in `xoroshiro128.h` without a body:
the jump over the table `JUMP`. -/
def xoroshiro128_jump (state : xoroshiro128_state) : xoroshiro128_state :=
  xoroshiro128_jump_with JUMP state

/-- The two jump constants as one polynomial of degree below 128. -/
def jumpPoly : Nat := 0xbeac0467eba5facb + 2 ^ 64 * 0xd86b048b86aa9922

/-! ### The legacy distribution layer

`distributions-boxmuller.h` declares the samplers and the struct `aug_bitgen_t`; the bodies
of the samplers are not part of the header. Doubles are an arbitrary linearly ordered field
`D`, the state of the bit generator an arbitrary type `G`. -/

/-- The C struct `aug_bitgen_t`: the bit generator `bit_generator` points to, the flag
`has_gauss` (a C `int`) and the cached double `gauss`. -/
structure aug_bitgen_t (G D : Type) where
  bit_generator : G
  has_gauss : Int
  gauss : D

/-- Modelled from the spec: the two error kinds of the error handling design. -/
inductive sampler_error where
  | DomainError
  | StateError
deriving DecidableEq, Repr

/-- Modelled from the spec: the sampling algorithms that run once the parameters are inside
their domain (standard gamma, beta, Poisson); their bodies are not in the header. Each takes
the augmented state and returns the variate with the state it leaves. -/
structure sampler_bodies (G D : Type) where
  standard_gamma : aug_bitgen_t G D → D → D × aug_bitgen_t G D
  beta : aug_bitgen_t G D → D → D → D × aug_bitgen_t G D
  poisson : aug_bitgen_t G D → D → Int × aug_bitgen_t G D

/-- Modelled from the spec: `legacy_standard_gamma`, declared in the header without a body.
Domain `shape > 0`; outside it the call is rejected before any draw. -/
def legacy_standard_gamma {G D : Type} [LinearOrderedField D] (B : sampler_bodies G D)
    (aug_state : aug_bitgen_t G D) (shape : D) :
    Except sampler_error D × aug_bitgen_t G D :=
  if 0 < shape then
    ((Except.ok (B.standard_gamma aug_state shape).1), (B.standard_gamma aug_state shape).2)
  else (Except.error sampler_error.DomainError, aug_state)

/-- Modelled from the spec: `legacy_gamma`, declared in the header without a body. Domain
`shape > 0`, `scale > 0`; inside it the value is `scale * standardGamma(shape)`. -/
def legacy_gamma {G D : Type} [LinearOrderedField D] (B : sampler_bodies G D)
    (aug_state : aug_bitgen_t G D) (shape scale : D) :
    Except sampler_error D × aug_bitgen_t G D :=
  if 0 < shape ∧ 0 < scale then
    ((Except.ok (scale * (B.standard_gamma aug_state shape).1)),
      (B.standard_gamma aug_state shape).2)
  else (Except.error sampler_error.DomainError, aug_state)

/-- Modelled from the spec: `legacy_beta`, declared in the header without a body. Domain
`a > 0`, `b > 0`. -/
def legacy_beta {G D : Type} [LinearOrderedField D] (B : sampler_bodies G D)
    (aug_state : aug_bitgen_t G D) (a b : D) :
    Except sampler_error D × aug_bitgen_t G D :=
  if 0 < a ∧ 0 < b then
    ((Except.ok (B.beta aug_state a b).1), (B.beta aug_state a b).2)
  else (Except.error sampler_error.DomainError, aug_state)

/-- Modelled from the spec: `legacy_negative_binomial`, declared in the header without a
body. Domain `n > 0`, `0 < p ≤ 1`; inside it `Y ~ Gamma(n, (1 - p) / p)` is drawn and
`Poisson(Y)` returned. -/
def legacy_negative_binomial {G D : Type} [LinearOrderedField D] (B : sampler_bodies G D)
    (aug_state : aug_bitgen_t G D) (n p : D) :
    Except sampler_error Int × aug_bitgen_t G D :=
  if 0 < n ∧ 0 < p ∧ p ≤ 1 then
    ((Except.ok (B.poisson (B.standard_gamma aug_state n).2
        ((1 - p) / p * (B.standard_gamma aug_state n).1)).1),
      (B.poisson (B.standard_gamma aug_state n).2
        ((1 - p) / p * (B.standard_gamma aug_state n).1)).2)
  else (Except.error sampler_error.DomainError, aug_state)

/-- Right rotation of a 64-bit word, `(x >> k) | (x << (64 - k))`: the inverse of `rotl`
that the predecessor of a state is written with. The header has only `rotl`. -/
def rotr (x : Nat) (k : Nat) : Nat :=
  (x >>> k) ||| ((x <<< (64 - k)) % 2 ^ 64)

/-- `rotl` with the shift amounts checked: in C a shift of a `uint64_t` by an amount outside
`0 .. 63` has no defined value, so `rotl(x, k)` is defined when both `k` and `64 - k` lie in
that range. -/
def rotl_checked (x : Nat) (k : Nat) : Option Nat :=
  if k < 64 ∧ 64 - k < 64 then some (rotl x k) else none

/-- `xoroshiro128_next` with every rotation going through `rotl_checked`. -/
def xoroshiro128_next_checked (s : Nat × Nat) : Option (Nat × (Nat × Nat)) :=
  let s0 := s.1
  let s1 := s.2
  let result := (s0 + s1) % 2 ^ 64
  let s1 := s1 ^^^ s0
  match rotl_checked s0 55, rotl_checked s1 36 with
  | some a, some c => some (result, (a ^^^ s1 ^^^ ((s1 <<< 14) % 2 ^ 64), c))
  | _, _ => none

/-! ## Theorems -/

theorem rotl_lt (x k : Nat) (hx : x < 2 ^ 64) : rotl x k < 2 ^ 64 := by
  unfold rotl
  apply Nat.or_lt_two_pow
  · exact Nat.mod_lt _ (by positivity)
  · rw [Nat.shiftRight_eq_div_pow]
    exact lt_of_le_of_lt (Nat.div_le_self _ _) hx

theorem next_result_lt (s : Nat × Nat) : (xoroshiro128_next s).1 < 2 ^ 64 :=
  Nat.mod_lt _ (by positivity)

theorem step_lt (s : Nat × Nat) (h0 : s.1 < 2 ^ 64) (h1 : s.2 < 2 ^ 64) :
    (step s).1 < 2 ^ 64 ∧ (step s).2 < 2 ^ 64 := by
  have ht : s.2 ^^^ s.1 < 2 ^ 64 := Nat.xor_lt_two_pow h1 h0
  refine ⟨?_, rotl_lt _ _ ht⟩
  show rotl s.1 55 ^^^ (s.2 ^^^ s.1) ^^^ (((s.2 ^^^ s.1) <<< 14) % 2 ^ 64) < 2 ^ 64
  exact Nat.xor_lt_two_pow (Nat.xor_lt_two_pow (rotl_lt _ _ h0) ht)
    (Nat.mod_lt _ (by positivity))

/-- C1: for every pair of 64-bit words `(s0, s1)`, `xoroshiro128_next64` returns
`(s0 + s1) mod 2^64` of the words before the update and leaves
`s0' = rotl(s0,55) xor t xor ((t << 14) mod 2^64)`, `s1' = rotl(t,36)` with
`t = s1 xor s0` formed from the old `s0`; both new words are again 64-bit words.
From `(1, 2)` the call returns `3` and leaves
`(36028797019013123, 206158430208)`. -/
theorem C1_next64_contract :
    (∀ (s0 s1 : Nat) (h : Int) (u : Nat), s0 < 2 ^ 64 → s1 < 2 ^ 64 →
      let st : xoroshiro128_state := { s := (s0, s1), has_uint32 := h, uinteger := u }
      let t := s1 ^^^ s0
      (xoroshiro128_next64 st).1 = (s0 + s1) % 2 ^ 64 ∧
      (xoroshiro128_next64 st).2.s.1 = rotl s0 55 ^^^ t ^^^ ((t <<< 14) % 2 ^ 64) ∧
      (xoroshiro128_next64 st).2.s.2 = rotl t 36 ∧
      (xoroshiro128_next64 st).2.s.1 < 2 ^ 64 ∧ (xoroshiro128_next64 st).2.s.2 < 2 ^ 64) ∧
    (∀ (h : Int) (u : Nat),
      (xoroshiro128_next64 { s := (1, 2), has_uint32 := h, uinteger := u }).1 = 3 ∧
      (xoroshiro128_next64 { s := (1, 2), has_uint32 := h, uinteger := u }).2.s
        = (36028797019013123, 206158430208) ∧
      (36028797019013123 : Nat) = 0x008000000000C003 ∧
      (206158430208 : Nat) = 0x0000003000000000) := by
  refine ⟨?_, ?_⟩
  · intro s0 s1 h u h0 h1
    have hs := step_lt (s0, s1) h0 h1
    exact ⟨rfl, rfl, rfl, hs.1, hs.2⟩
  · intro h u
    have h1 : (xoroshiro128_next (1, 2)).1 = 3 := by decide
    have h2 : (xoroshiro128_next (1, 2)).2 = (36028797019013123, 206158430208) := by decide
    exact ⟨h1, h2, by decide, by decide⟩

theorem and_mask32 (n : Nat) : n &&& 0xffffffff = n % 2 ^ 32 :=
  Nat.and_pow_two_sub_one_eq_mod n 32

theorem hi32_lt (n : Nat) (h : n < 2 ^ 64) : hi32 n < 2 ^ 32 := by
  unfold hi32
  omega

theorem next32_miss (st : xoroshiro128_state) (h : st.has_uint32 = 0) :
    xoroshiro128_next32 st =
      (hi32 (xoroshiro128_next st.s).1,
        { s := step st.s, has_uint32 := 1, uinteger := lo32 (xoroshiro128_next st.s).1 }) := by
  have hr := next_result_lt st.s
  have hh := hi32_lt _ hr
  unfold hi32 at hh
  simp only [xoroshiro128_next32, h, ne_eq, not_true_eq_false, if_false, and_mask32,
    Nat.shiftRight_eq_div_pow, hi32, lo32, step, Nat.mod_mod]
  rw [Nat.mod_eq_of_lt hh]

theorem next32_hit (st : xoroshiro128_state) (h : st.has_uint32 ≠ 0) :
    xoroshiro128_next32 st = (st.uinteger, { st with has_uint32 := 0 }) := by
  simp [xoroshiro128_next32, h]

/-- C3: one `xoroshiro128_next32` call. On a miss (`has_uint32 = 0`) it makes exactly one
`xoroshiro128_next` step on the state words, returns the high 32 bits of that draw,
stores its low 32 bits in `uinteger` and sets `has_uint32` to 1. On a hit (`has_uint32`
nonzero) it returns `uinteger`, sets `has_uint32` to 0 and leaves the state words and
`uinteger` as they were. -/
theorem C3_next32_per_call (st : xoroshiro128_state) :
    (st.has_uint32 = 0 →
      (xoroshiro128_next32 st).1 = (xoroshiro128_next st.s).1 / 2 ^ 32 ∧
      (xoroshiro128_next32 st).2.s = (xoroshiro128_next st.s).2 ∧
      (xoroshiro128_next32 st).2.uinteger = (xoroshiro128_next st.s).1 % 2 ^ 32 ∧
      (xoroshiro128_next32 st).2.has_uint32 = 1 ∧
      (xoroshiro128_next32 st).1 < 2 ^ 32 ∧ (xoroshiro128_next32 st).2.uinteger < 2 ^ 32) ∧
    (st.has_uint32 ≠ 0 →
      (xoroshiro128_next32 st).1 = st.uinteger ∧
      (xoroshiro128_next32 st).2.has_uint32 = 0 ∧
      (xoroshiro128_next32 st).2.s = st.s ∧
      (xoroshiro128_next32 st).2.uinteger = st.uinteger) := by
  refine ⟨fun h => ?_, fun h => ?_⟩
  · rw [next32_miss st h]
    exact ⟨rfl, rfl, rfl, rfl, hi32_lt _ (next_result_lt st.s), Nat.mod_lt _ (by positivity)⟩
  · rw [next32_hit st h]
    exact ⟨rfl, rfl, rfl, rfl⟩

theorem run32_two (n : Nat) (st : xoroshiro128_state) (h : st.has_uint32 = 0) :
    run32 (2 * (n + 1)) st =
      (hi32 (xoroshiro128_next st.s).1 :: lo32 (xoroshiro128_next st.s).1 ::
          (run32 (2 * n) ⟨step st.s, 0, lo32 (xoroshiro128_next st.s).1⟩).1,
        (run32 (2 * n) ⟨step st.s, 0, lo32 (xoroshiro128_next st.s).1⟩).2) := by
  have e : 2 * (n + 1) = (2 * n + 1) + 1 := by ring
  rw [e]
  simp only [run32]
  rw [next32_miss st h, next32_hit _ (by simp)]

theorem run32_halves (n : Nat) :
    ∀ st st' : xoroshiro128_state, st.has_uint32 = 0 → st.s = st'.s →
      (run32 (2 * n) st).1 = halves (run64 n st').1 ∧
      (run32 (2 * n) st).2.s = (run64 n st').2.s ∧
      (run32 (2 * n) st).2.has_uint32 = 0 := by
  induction n with
  | zero =>
    intro st st' h hs
    exact ⟨rfl, hs, h⟩
  | succ n ih =>
    intro st st' h hs
    rw [run32_two n st h]
    have ih' := ih ⟨step st.s, 0, lo32 (xoroshiro128_next st.s).1⟩
      (xoroshiro128_next64 st').2 rfl
        (by simp [xoroshiro128_next64, step, hs])
    refine ⟨?_, ih'.2.1, ih'.2.2⟩
    show _ :: _ :: _ = halves ((xoroshiro128_next64 st').1 :: (run64 n (xoroshiro128_next64 st').2).1)
    rw [halves, ← ih'.1]
    simp only [xoroshiro128_next64, hs]

/-- C4: from any state with an empty cache and for every `n`, the outputs of `2 n`
consecutive `xoroshiro128_next32` calls are exactly `hi(x1), lo(x1), ..., hi(xn), lo(xn)`
for the outputs `x1 .. xn` of `n` consecutive `xoroshiro128_next64` calls from the same
state words; the final state words coincide and the cache is empty again. -/
theorem C4_next32_stream_is_halves (st : xoroshiro128_state) (h : st.has_uint32 = 0)
    (n : Nat) :
    (run32 (2 * n) st).1 = halves (run64 n st).1 ∧
    (run32 (2 * n) st).2.s = (run64 n st).2.s ∧
    (run32 (2 * n) st).2.has_uint32 = 0 :=
  run32_halves n st st h rfl

/-- Witness for C4: three 64-bit draws against six 32-bit draws from words `(1, 2)`. -/
theorem C4_next32_stream_is_halves_witness :
    (run32 (2 * 3) ⟨(1, 2), 0, 7⟩).1 = halves (run64 3 ⟨(1, 2), 0, 7⟩).1 ∧
    (run32 (2 * 3) ⟨(1, 2), 0, 7⟩).2.s = (run64 3 ⟨(1, 2), 0, 7⟩).2.s ∧
    (run32 (2 * 3) ⟨(1, 2), 0, 7⟩).2.has_uint32 = 0 :=
  C4_next32_stream_is_halves ⟨(1, 2), 0, 7⟩ rfl 3

/-- C5: the `xoroshiro128_next64` output sequence depends only on the seed words: two
states with equal `s`, whatever their `has_uint32` and `uinteger`, give for every `n` the
same first `n` outputs and the same state words after them. -/
theorem C5_next64_deterministic (st st' : xoroshiro128_state) (hs : st.s = st'.s)
    (n : Nat) :
    (run64 n st).1 = (run64 n st').1 ∧ (run64 n st).2.s = (run64 n st').2.s := by
  induction n generalizing st st' with
  | zero => exact ⟨rfl, hs⟩
  | succ n ih =>
    have ih' := ih (xoroshiro128_next64 st).2 (xoroshiro128_next64 st').2
      (by simp [xoroshiro128_next64, hs])
    simp only [run64]
    refine ⟨?_, ih'.2⟩
    rw [ih'.1]
    simp [xoroshiro128_next64, hs]

/-- Witness for C5: same words `(1, 2)`, different cache fields, four draws. -/
theorem C5_next64_deterministic_witness :
    (run64 4 ⟨(1, 2), 0, 0⟩).1 = (run64 4 ⟨(1, 2), 1, 99⟩).1 ∧
    (run64 4 ⟨(1, 2), 0, 0⟩).2.s = (run64 4 ⟨(1, 2), 1, 99⟩).2.s :=
  C5_next64_deterministic ⟨(1, 2), 0, 0⟩ ⟨(1, 2), 1, 99⟩ rfl 4

/-! ### Linearity of the state transition over GF(2) -/

theorem shl_mod_xor (a b k : Nat) :
    ((a ^^^ b) <<< k) % 2 ^ 64 = ((a <<< k) % 2 ^ 64) ^^^ ((b <<< k) % 2 ^ 64) := by
  apply Nat.eq_of_testBit_eq
  intro i
  simp only [Nat.testBit_mod_two_pow, Nat.testBit_shiftLeft, Nat.testBit_xor]
  cases decide (i < 64) <;> cases decide (i ≥ k) <;> simp

theorem shr_xor (a b k : Nat) : (a ^^^ b) >>> k = (a >>> k) ^^^ (b >>> k) := by
  apply Nat.eq_of_testBit_eq
  intro i
  simp only [Nat.testBit_shiftRight, Nat.testBit_xor]

theorem testBit_ge64 (x i : Nat) (hx : x < 2 ^ 64) (hi : 64 ≤ i) : x.testBit i = false :=
  Nat.testBit_lt_two_pow (lt_of_lt_of_le hx (Nat.pow_le_pow_right (by norm_num) hi))

/-- On a 64-bit word the two halves of `rotl` have no bit in common, so the `|` is a `^`. -/
theorem rotl_eq_xor (x k : Nat) (hx : x < 2 ^ 64) (hk : k ≤ 64) :
    rotl x k = ((x <<< k) % 2 ^ 64) ^^^ (x >>> (64 - k)) := by
  unfold rotl
  apply Nat.eq_of_testBit_eq
  intro i
  simp only [Nat.testBit_mod_two_pow, Nat.testBit_shiftLeft, Nat.testBit_xor, Nat.testBit_or,
    Nat.testBit_shiftRight]
  by_cases h : k ≤ i
  · have : x.testBit (64 - k + i) = false := testBit_ge64 x _ hx (by omega)
    simp [this]
  · simp [h]

theorem xor_swap4 (a b c d : Nat) : (a ^^^ b) ^^^ (c ^^^ d) = (a ^^^ c) ^^^ (b ^^^ d) := by
  apply Nat.eq_of_testBit_eq
  intro i
  simp only [Nat.testBit_xor]
  cases a.testBit i <;> cases b.testBit i <;> cases c.testBit i <;> cases d.testBit i <;> rfl

theorem xor_swap6 (a b c d e f : Nat) :
    (a ^^^ b) ^^^ (c ^^^ d) ^^^ (e ^^^ f) = (a ^^^ c ^^^ e) ^^^ (b ^^^ d ^^^ f) := by
  apply Nat.eq_of_testBit_eq
  intro i
  simp only [Nat.testBit_xor]
  cases a.testBit i <;> cases b.testBit i <;> cases c.testBit i <;> cases d.testBit i <;>
    cases e.testBit i <;> cases f.testBit i <;> rfl

theorem rotl_xor (a b k : Nat) (ha : a < 2 ^ 64) (hb : b < 2 ^ 64) (hk : k ≤ 64) :
    rotl (a ^^^ b) k = rotl a k ^^^ rotl b k := by
  rw [rotl_eq_xor _ k (Nat.xor_lt_two_pow ha hb) hk, rotl_eq_xor a k ha hk,
    rotl_eq_xor b k hb hk, shl_mod_xor, shr_xor]
  exact xor_swap4 _ _ _ _

theorem step_xor2 (a b : Nat × Nat) (ha0 : a.1 < 2 ^ 64) (ha1 : a.2 < 2 ^ 64)
    (hb0 : b.1 < 2 ^ 64) (hb1 : b.2 < 2 ^ 64) :
    step (xor2 a b) = xor2 (step a) (step b) := by
  have e : (a.2 ^^^ b.2) ^^^ (a.1 ^^^ b.1) = (a.2 ^^^ a.1) ^^^ (b.2 ^^^ b.1) :=
    xor_swap4 _ _ _ _
  have hta : a.2 ^^^ a.1 < 2 ^ 64 := Nat.xor_lt_two_pow ha1 ha0
  have htb : b.2 ^^^ b.1 < 2 ^ 64 := Nat.xor_lt_two_pow hb1 hb0
  show (rotl (a.1 ^^^ b.1) 55 ^^^ ((a.2 ^^^ b.2) ^^^ (a.1 ^^^ b.1)) ^^^
        ((((a.2 ^^^ b.2) ^^^ (a.1 ^^^ b.1)) <<< 14) % 2 ^ 64),
      rotl ((a.2 ^^^ b.2) ^^^ (a.1 ^^^ b.1)) 36) =
    ((rotl a.1 55 ^^^ (a.2 ^^^ a.1) ^^^ (((a.2 ^^^ a.1) <<< 14) % 2 ^ 64)) ^^^
        (rotl b.1 55 ^^^ (b.2 ^^^ b.1) ^^^ (((b.2 ^^^ b.1) <<< 14) % 2 ^ 64)),
      rotl (a.2 ^^^ a.1) 36 ^^^ rotl (b.2 ^^^ b.1) 36)
  rw [e, rotl_xor _ _ 55 ha0 hb0 (by norm_num), rotl_xor _ _ 36 hta htb (by norm_num),
    shl_mod_xor, xor_swap6]

theorem step_zero : step (0, 0) = (0, 0) := by decide

/-- C6: the state transition of `xoroshiro128_next` is linear over GF(2) on the 128-bit
state: for all states `a`, `b` of 64-bit words, `step (a xor b) = step a xor step b`
componentwise, and `step (0, 0) = (0, 0)`. -/
theorem C6_step_linear :
    (∀ a0 a1 b0 b1 : Nat, a0 < 2 ^ 64 → a1 < 2 ^ 64 → b0 < 2 ^ 64 → b1 < 2 ^ 64 →
      (xoroshiro128_next (a0 ^^^ b0, a1 ^^^ b1)).2 =
        ((xoroshiro128_next (a0, a1)).2.1 ^^^ (xoroshiro128_next (b0, b1)).2.1,
         (xoroshiro128_next (a0, a1)).2.2 ^^^ (xoroshiro128_next (b0, b1)).2.2)) ∧
    (xoroshiro128_next (0, 0)).2 = (0, 0) :=
  ⟨fun a0 a1 b0 b1 ha0 ha1 hb0 hb1 => step_xor2 (a0, a1) (b0, b1) ha0 ha1 hb0 hb1, step_zero⟩

/-! ### Polynomials in the transition -/

theorem xor2_zero (a : Nat × Nat) : xor2 a (0, 0) = a := by
  simp [xor2]

theorem zero_xor2 (a : Nat × Nat) : xor2 (0, 0) a = a := by
  simp [xor2]

theorem xor2_swap4 (a b c d : Nat × Nat) :
    xor2 (xor2 a b) (xor2 c d) = xor2 (xor2 a c) (xor2 b d) := by
  simp only [xor2, xor_swap4 a.1 b.1 c.1 d.1, xor_swap4 a.2 b.2 c.2 d.2]

theorem word2_xor2 {a b : Nat × Nat} (ha : Word2 a) (hb : Word2 b) : Word2 (xor2 a b) :=
  ⟨Nat.xor_lt_two_pow ha.1 hb.1, Nat.xor_lt_two_pow ha.2 hb.2⟩

theorem word2_zero : Word2 (0, 0) := ⟨by norm_num, by norm_num⟩

theorem word2_step {s : Nat × Nat} (h : Word2 s) : Word2 (step s) := step_lt s h.1 h.2

theorem word2_iterate {s : Nat × Nat} (h : Word2 s) (n : Nat) : Word2 (step^[n] s) := by
  induction n with
  | zero => exact h
  | succ n ih =>
    rw [Function.iterate_succ_apply']
    exact word2_step ih

theorem step_xor2' {a b : Nat × Nat} (ha : Word2 a) (hb : Word2 b) :
    step (xor2 a b) = xor2 (step a) (step b) :=
  step_xor2 a b ha.1 ha.2 hb.1 hb.2

theorem word2_evalPoly (n q : Nat) {s : Nat × Nat} (h : Word2 s) : Word2 (evalPoly n q s) := by
  induction n generalizing q s with
  | zero => exact word2_zero
  | succ n ih =>
    simp only [evalPoly]
    apply word2_xor2 _ (ih _ (word2_step h))
    split
    · exact h
    · exact word2_zero

theorem evalPoly_zero_state (n q : Nat) : evalPoly n q (0, 0) = (0, 0) := by
  induction n generalizing q with
  | zero => rfl
  | succ n ih =>
    simp only [evalPoly, step_zero, ih, ite_self]
    decide

theorem evalPoly_zero_poly (n : Nat) (s : Nat × Nat) : evalPoly n 0 s = (0, 0) := by
  induction n generalizing s with
  | zero => rfl
  | succ n ih =>
    simp only [evalPoly, ih, Nat.zero_testBit, Bool.false_eq_true, if_false, Nat.zero_div]
    decide

theorem evalPoly_step (n q : Nat) {s : Nat × Nat} (h : Word2 s) :
    evalPoly n q (step s) = step (evalPoly n q s) := by
  induction n generalizing q s with
  | zero => exact step_zero.symm
  | succ n ih =>
    simp only [evalPoly]
    rw [ih _ (word2_step h)]
    have hw : Word2 (evalPoly n (q / 2) (step s)) := word2_evalPoly _ _ (word2_step h)
    split
    · rw [step_xor2' h hw]
    · rw [step_xor2' word2_zero hw, step_zero]

theorem evalPoly_iterate (n q m : Nat) {s : Nat × Nat} (h : Word2 s) :
    evalPoly n q (step^[m] s) = step^[m] (evalPoly n q s) := by
  induction m with
  | zero => rfl
  | succ m ih =>
    rw [Function.iterate_succ_apply', Function.iterate_succ_apply',
      evalPoly_step _ _ (word2_iterate h m), ih]

theorem evalPoly_xor (n a b : Nat) (s : Nat × Nat) :
    evalPoly n (a ^^^ b) s = xor2 (evalPoly n a s) (evalPoly n b s) := by
  induction n generalizing a b s with
  | zero =>
    simp only [evalPoly]
    decide
  | succ n ih =>
    simp only [evalPoly]
    have hd : (a ^^^ b) / 2 = a / 2 ^^^ b / 2 := by
      apply Nat.eq_of_testBit_eq
      intro i
      simp only [Nat.testBit_xor, ← Nat.testBit_succ]
    rw [hd, ih, Nat.testBit_xor, xor2_swap4 _ (evalPoly n (a / 2) (step s))]
    congr 1
    cases a.testBit 0 <;> cases b.testBit 0 <;> simp [xor2]

theorem evalPoly_shift (n q : Nat) {s : Nat × Nat} (h : Word2 s) :
    evalPoly (n + 1) (q <<< 1) s = step (evalPoly n q s) := by
  have h0 : (q <<< 1).testBit 0 = false := by simp [Nat.testBit_shiftLeft]
  have h1 : (q <<< 1) / 2 = q := by
    rw [Nat.shiftLeft_eq]
    omega
  simp only [evalPoly, h0, h1, Bool.false_eq_true, if_false, zero_xor2]
  exact evalPoly_step _ _ h

theorem evalPoly_fuel (n k : Nat) (q : Nat) (s : Nat × Nat) (hq : q < 2 ^ n) :
    evalPoly (n + k) q s = evalPoly n q s := by
  induction n generalizing q s with
  | zero =>
    have : q = 0 := by simpa using hq
    subst this
    rw [evalPoly_zero_poly]
    rfl
  | succ n ih =>
    have e : n + 1 + k = (n + k) + 1 := by ring
    rw [e]
    simp only [evalPoly]
    rw [ih (q / 2) (step s) (by rw [pow_succ] at hq; omega)]

theorem testBit_false_of_lt {x n i : Nat} (hx : x < 2 ^ n) (hi : n ≤ i) : x.testBit i = false :=
  Nat.testBit_lt_two_pow (lt_of_lt_of_le hx (Nat.pow_le_pow_right (by norm_num) hi))

theorem lt_of_top_bit_clear {x n : Nat} (hx : x < 2 ^ (n + 1)) (hb : x.testBit n = false) :
    x < 2 ^ n := by
  apply Nat.lt_pow_two_of_testBit
  intro i hi
  rcases Nat.eq_or_lt_of_le hi with h | h
  · rw [← h]
    exact hb
  · exact testBit_false_of_lt hx h

theorem shl1_lt {q : Nat} (hq : q < 2 ^ 128) : q <<< 1 < 2 ^ (128 + 1) := by
  rw [Nat.shiftLeft_eq, pow_succ]
  omega

theorem charPoly_lt : charPoly < 2 ^ (128 + 1) := by decide

theorem charPoly_top : charPoly.testBit 128 = true := by decide

theorem mulX_lt {q : Nat} (hq : q < 2 ^ 128) : mulX q < 2 ^ 128 := by
  unfold mulX
  split
  · next hb =>
    apply lt_of_top_bit_clear (Nat.xor_lt_two_pow (shl1_lt hq) charPoly_lt)
    rw [Nat.testBit_xor, hb, charPoly_top]
    rfl
  · next hb =>
    exact lt_of_top_bit_clear (shl1_lt hq) (by simpa using hb)

theorem evalPoly_mulX {q : Nat} {s : Nat × Nat} (hq : q < 2 ^ 128) (hs : Word2 s)
    (hP : evalPoly 129 charPoly s = (0, 0)) :
    evalPoly 128 (mulX q) s = step (evalPoly 128 q s) := by
  rw [← evalPoly_fuel 128 1 _ s (mulX_lt hq), ← evalPoly_shift 128 q hs]
  unfold mulX
  split
  · rw [evalPoly_xor, hP, xor2_zero]
  · rfl

theorem mulPoly_lt (n a : Nat) {b : Nat} (hb : b < 2 ^ 128) : mulPoly n a b < 2 ^ 128 := by
  induction n generalizing a b with
  | zero => exact Nat.two_pow_pos 128
  | succ n ih =>
    simp only [mulPoly]
    apply Nat.xor_lt_two_pow _ (ih _ (mulX_lt hb))
    split
    · exact hb
    · exact Nat.two_pow_pos 128

theorem evalPoly_mulPoly (n a : Nat) {b : Nat} {s : Nat × Nat} (hb : b < 2 ^ 128)
    (hs : Word2 s) (hP : evalPoly 129 charPoly s = (0, 0)) :
    evalPoly 128 (mulPoly n a b) s = evalPoly n a (evalPoly 128 b s) := by
  induction n generalizing a b with
  | zero => exact evalPoly_zero_poly 128 s
  | succ n ih =>
    have e1 : mulPoly (n + 1) a b = (if a.testBit 0 then b else 0) ^^^ mulPoly n (a / 2) (mulX b) :=
      rfl
    have e2 : evalPoly (n + 1) a (evalPoly 128 b s) =
        xor2 (if a.testBit 0 then evalPoly 128 b s else (0, 0))
          (evalPoly n (a / 2) (step (evalPoly 128 b s))) := rfl
    rw [e1, e2, evalPoly_xor, ih _ (mulX_lt hb), evalPoly_mulX hb hs hP]
    congr 1
    split
    · rfl
    · exact evalPoly_zero_poly 128 s

theorem word2_v0 : Word2 v0 := ⟨by decide, by decide⟩

theorem evalPoly_one (n : Nat) (s : Nat × Nat) : evalPoly (n + 1) 1 s = s := by
  have e : evalPoly (n + 1) 1 s =
      xor2 (if (1 : Nat).testBit 0 then s else (0, 0)) (evalPoly n (1 / 2) (step s)) := rfl
  rw [e, show (1 : Nat) / 2 = 0 from rfl, evalPoly_zero_poly, xor2_zero,
    show (1 : Nat).testBit 0 = true from rfl, if_pos rfl]

theorem evalPoly_x (n : Nat) (s : Nat × Nat) : evalPoly (n + 2) 2 s = step s := by
  have e : evalPoly (n + 2) 2 s =
      xor2 (if (2 : Nat).testBit 0 then s else (0, 0)) (evalPoly (n + 1) (2 / 2) (step s)) := rfl
  rw [e, show (2 : Nat) / 2 = 1 from rfl, evalPoly_one, show (2 : Nat).testBit 0 = false from rfl,
    if_neg (by simp), zero_xor2]

theorem rep_one : Rep 1 0 := ⟨by norm_num, evalPoly_one 127 v0⟩

theorem rep_x : Rep 2 1 := ⟨by norm_num, evalPoly_x 126 v0⟩

theorem rep_mul (hP : evalPoly 129 charPoly v0 = (0, 0)) {a b k m : Nat}
    (ha : Rep a k) (hb : Rep b m) : Rep (mulPoly 128 a b) (k + m) := by
  refine ⟨mulPoly_lt _ _ hb.1, ?_⟩
  rw [evalPoly_mulPoly 128 a hb.1 word2_v0 hP, hb.2, evalPoly_iterate _ _ _ word2_v0, ha.2,
    ← Function.iterate_add_apply, Nat.add_comm]

theorem rep_pow (hP : evalPoly 129 charPoly v0 = (0, 0)) (f : Nat) :
    ∀ (e b acc m k : Nat), e < 2 ^ f → Rep b m → Rep acc k →
      Rep (powPoly f e b acc) (k + m * e) := by
  induction f with
  | zero =>
    intro e b acc m k he _ hacc
    have : e = 0 := by simpa using he
    subst this
    simpa [powPoly] using hacc
  | succ f ih =>
    intro e b acc m k he hb hacc
    simp only [powPoly]
    have he2 : e / 2 < 2 ^ f := by
      rw [pow_succ] at he
      omega
    have hbb := rep_mul hP hb hb
    by_cases h1 : e % 2 = 1
    · rw [if_pos h1]
      have := ih (e / 2) _ _ _ _ he2 hbb (rep_mul hP hacc hb)
      have e1 : k + m + (m + m) * (e / 2) = k + m * e := by
        have := Nat.div_add_mod e 2
        calc k + m + (m + m) * (e / 2) = k + m * (2 * (e / 2) + 1) := by ring
          _ = k + m * e := by rw [← h1, this]
      rwa [e1] at this
    · rw [if_neg h1]
      have := ih (e / 2) _ _ _ _ he2 hbb hacc
      have e1 : k + (m + m) * (e / 2) = k + m * e := by
        have h0 : e % 2 = 0 := by omega
        have := Nat.div_add_mod e 2
        calc k + (m + m) * (e / 2) = k + m * (2 * (e / 2) + 0) := by ring
          _ = k + m * e := by rw [← h0, this]
      rwa [e1] at this

/-- `step^[e] v0` is the value at `v0` of `x ^ e` reduced modulo `charPoly`. -/
theorem iterate_eq_evalPoly (hP : evalPoly 129 charPoly v0 = (0, 0)) (f e : Nat)
    (he : e < 2 ^ f) : step^[e] v0 = evalPoly 128 (powPoly f e 2 1) v0 := by
  have := rep_pow hP f e 2 1 1 0 he rep_x rep_one
  rw [Nat.zero_add, Nat.one_mul] at this
  exact this.2.symm

/-! ### Primality of the factors of `2^128 - 1` -/

theorem powMod_spec (f : Nat) : ∀ (a e p acc : Nat), e < 2 ^ f →
    powMod f a e p acc % p = (acc * a ^ e) % p := by
  induction f with
  | zero =>
    intro a e p acc he
    have : e = 0 := by simpa using he
    subst this
    simp [powMod]
  | succ f ih =>
    intro a e p acc he
    have he2 : e / 2 < 2 ^ f := by
      rw [pow_succ] at he
      omega
    simp only [powMod]
    rw [ih _ _ _ _ he2]
    have hsq : (a * a % p) ^ (e / 2) ≡ a ^ (2 * (e / 2)) [MOD p] := by
      rw [pow_mul, pow_two]
      exact (Nat.mod_modEq _ _).pow _
    have hdm := Nat.div_add_mod e 2
    by_cases h1 : e % 2 = 1
    · rw [if_pos h1]
      have key : acc * a % p * (a * a % p) ^ (e / 2) ≡ acc * a * a ^ (2 * (e / 2)) [MOD p] :=
        (Nat.mod_modEq _ _).mul hsq
      have e1 : acc * a * a ^ (2 * (e / 2)) = acc * a ^ e := by
        conv_rhs => rw [← hdm, h1, pow_succ]
        ring
      rw [e1] at key
      exact key
    · have h0 : e % 2 = 0 := by omega
      rw [if_neg h1]
      have key : acc * (a * a % p) ^ (e / 2) ≡ acc * a ^ (2 * (e / 2)) [MOD p] :=
        (Nat.ModEq.refl acc).mul hsq
      have e1 : acc * a ^ (2 * (e / 2)) = acc * a ^ e := by
        conv_rhs => rw [← hdm, h0, Nat.add_zero]
      rw [e1] at key
      exact key

theorem zmod_pow_eq_one_iff (p a e f : Nat) (hp : 1 < p) (he : e < 2 ^ f) :
    (a : ZMod p) ^ e = 1 ↔ powMod f a e p 1 % p = 1 := by
  rw [powMod_spec f a e p 1 he, Nat.one_mul, ← Nat.cast_pow, ← Nat.cast_one (R := ZMod p),
    ZMod.natCast_eq_natCast_iff', Nat.mod_eq_of_lt hp]

theorem prime_2998279 : Nat.Prime 2998279 := by norm_num

theorem prime_67280421310721 : Nat.Prime 67280421310721 := by
  apply lucas_primality 67280421310721 ((3 : ℕ) : ZMod 67280421310721)
  · rw [zmod_pow_eq_one_iff _ _ _ 46 (by norm_num) (by norm_num)]
    decide!
  · intro q hq hdvd
    have hprod : (67280421310721 - 1 : ℕ) = [2, 2, 2, 2, 2, 2, 2, 2, 5, 47, 373, 2998279].prod := by
      norm_num
    rw [hprod] at hdvd
    have hmem := mem_list_primes_of_dvd_prod (Nat.Prime.prime hq)
      (by
        intro r hr
        simp only [List.mem_cons, List.mem_singleton, List.not_mem_nil, or_false] at hr
        rcases hr with h | h | h | h | h | h | h | h | h | h | h | h <;> subst h <;>
          first
            | exact Nat.Prime.prime prime_2998279
            | exact Nat.Prime.prime (by norm_num)) hdvd
    simp only [List.mem_cons, List.mem_singleton, List.not_mem_nil, or_false] at hmem
    rcases hmem with h | h | h | h | h | h | h | h | h | h | h | h <;> subst h <;>
      (rw [Ne, zmod_pow_eq_one_iff _ _ _ 46 (by norm_num) (by norm_num)]; decide!)

theorem periodFactors_prod : periodFactors.prod = period := by decide

theorem periodFactors_prime : ∀ p ∈ periodFactors, Nat.Prime p := by
  intro p hp
  simp only [periodFactors, List.mem_cons, List.mem_singleton, List.not_mem_nil, or_false] at hp
  rcases hp with h | h | h | h | h | h | h | h | h <;> subst h <;>
    first
      | exact prime_67280421310721
      | norm_num

/-! ### The orbit of `v0` -/

theorem step_isPeriodicPt_of_dvd {n m : Nat} {s : Nat × Nat} (h : step^[n] s = s)
    (hd : n ∣ m) : step^[m] s = s :=
  Function.IsPeriodicPt.trans_dvd (f := step) h hd

/-- If `v0` returns after `period` steps but after no `period / p` steps, `p` a prime factor,
its minimal period is `period`. -/
theorem minimalPeriod_v0_of (h1 : step^[period] v0 = v0)
    (h2 : ∀ p ∈ periodFactors, step^[period / p] v0 ≠ v0) :
    Function.minimalPeriod step v0 = period := by
  have hd : Function.minimalPeriod step v0 ∣ period :=
    Function.IsPeriodicPt.minimalPeriod_dvd (f := step) h1
  obtain ⟨e, he⟩ := hd
  by_contra hne
  have hpos : 0 < period := by decide
  have he0 : e ≠ 0 := by
    rintro rfl
    rw [Nat.mul_zero] at he
    omega
  have he1 : e ≠ 1 := by
    rintro rfl
    rw [Nat.mul_one] at he
    exact hne he.symm
  obtain ⟨p, hp, c, hc⟩ : ∃ p, Nat.Prime p ∧ ∃ c, e = p * c :=
    ⟨e.minFac, Nat.minFac_prime he1, Nat.minFac_dvd e⟩
  have hdvd : p ∣ periodFactors.prod := by
    rw [periodFactors_prod, he, hc]
    exact ⟨Function.minimalPeriod step v0 * c, Nat.mul_left_comm _ _ _⟩
  have hmem : p ∈ periodFactors :=
    mem_list_primes_of_dvd_prod (Nat.Prime.prime hp)
      (fun q hq => Nat.Prime.prime (periodFactors_prime q hq)) hdvd
  apply h2 _ hmem
  apply step_isPeriodicPt_of_dvd (Function.isPeriodicPt_minimalPeriod step v0)
  refine ⟨c, ?_⟩
  rw [he, hc, Nat.mul_left_comm, Nat.mul_div_cancel_left _ hp.pos]

theorem enc_lt {s : Nat × Nat} (h : Word2 s) : enc s < 2 ^ 128 := by
  have h1 := h.1
  have h2 := h.2
  unfold enc
  norm_num at h1 h2 ⊢
  omega

theorem enc_inj {s t : Nat × Nat} (hs : Word2 s) (ht : Word2 t) (h : enc s = enc t) : s = t := by
  have h1 := hs.1
  have h2 := hs.2
  have h3 := ht.1
  have h4 := ht.2
  unfold enc at h
  norm_num at h1 h2 h3 h4 h
  apply Prod.ext <;> omega

theorem enc_pos {s : Nat × Nat} (h : s ≠ (0, 0)) : 0 < enc s := by
  unfold enc
  by_contra hc
  apply h
  apply Prod.ext <;> simp <;> omega

theorem iterate_zero_state (n : Nat) : step^[n] (0, 0) = (0, 0) :=
  Function.iterate_fixed step_zero n

theorem orbit_ne_zero (hmin : Function.minimalPeriod step v0 = period) (k : Nat) :
    step^[k] v0 ≠ (0, 0) := by
  intro h
  have hper : step^[period] v0 = v0 := by
    rw [← hmin]
    exact Function.isPeriodicPt_minimalPeriod step v0
  have h1 : step^[period * k] v0 = v0 := step_isPeriodicPt_of_dvd hper ⟨k, rfl⟩
  have hk : k ≤ period * k := Nat.le_mul_of_pos_left k (by decide)
  have h2 : step^[period * k] v0 = (0, 0) := by
    rw [← Nat.sub_add_cancel hk, Function.iterate_add_apply, h, iterate_zero_state]
  rw [h1] at h2
  exact absurd h2 (by decide)

/-- Every nonzero state is on the orbit of `v0`: the orbit has `2^128 - 1` distinct nonzero
members and there are no more nonzero states. -/
theorem orbit_covers (hmin : Function.minimalPeriod step v0 = period) {s : Nat × Nat}
    (hs : Word2 s) (hne : s ≠ (0, 0)) : ∃ k, step^[k] v0 = s := by
  have hinj : Set.InjOn (fun k => enc (step^[k] v0)) (Finset.range period : Set Nat) := by
    intro a ha b hb hab
    have hab' : step^[a] v0 = step^[b] v0 :=
      enc_inj (word2_iterate word2_v0 a) (word2_iterate word2_v0 b) hab
    have ha' : a < Function.minimalPeriod step v0 := by
      rw [hmin]
      simpa using ha
    have hb' : b < Function.minimalPeriod step v0 := by
      rw [hmin]
      simpa using hb
    exact Function.iterate_injOn_Iio_minimalPeriod ha' hb' hab'
  have hsub : (Finset.range period).image (fun k => enc (step^[k] v0)) ⊆
      Finset.Ico 1 (2 ^ 128) := by
    intro x hx
    obtain ⟨k, _, rfl⟩ := Finset.mem_image.1 hx
    rw [Finset.mem_Ico]
    exact ⟨enc_pos (orbit_ne_zero hmin k), enc_lt (word2_iterate word2_v0 k)⟩
  have hcard : (Finset.Ico 1 (2 ^ 128)).card ≤
      ((Finset.range period).image (fun k => enc (step^[k] v0))).card := by
    rw [Finset.card_image_of_injOn hinj, Finset.card_range, Nat.card_Ico]
    exact le_of_eq rfl
  have heq := Finset.eq_of_subset_of_card_le hsub hcard
  have hmem : enc s ∈ (Finset.range period).image (fun k => enc (step^[k] v0)) := by
    rw [heq, Finset.mem_Ico]
    exact ⟨enc_pos hne, enc_lt hs⟩
  obtain ⟨k, _, hk⟩ := Finset.mem_image.1 hmem
  exact ⟨k, enc_inj (word2_iterate word2_v0 k) hs hk⟩

theorem minimalPeriod_eq_period (hmin : Function.minimalPeriod step v0 = period)
    {s : Nat × Nat} (hs : Word2 s) (hne : s ≠ (0, 0)) :
    Function.minimalPeriod step s = period := by
  obtain ⟨k, rfl⟩ := orbit_covers hmin hs hne
  have hv : v0 ∈ Function.periodicPts step :=
    Function.mk_mem_periodicPts (n := period) (by decide)
      (by
        show Function.IsPeriodicPt step period v0
        rw [← hmin]
        exact Function.isPeriodicPt_minimalPeriod step v0)
  rw [Function.minimalPeriod_apply_iterate hv, hmin]


/-! ### Computations in GF(2)[x] modulo the characteristic polynomial -/

theorem charPoly_annihilates : evalPoly 129 charPoly v0 = (0, 0) := by decide!


theorem powPoly_period : powPoly 128 period 2 1 = 1 := by decide!

theorem powPoly_cofactors :
    ∀ p ∈ periodFactors, evalPoly 128 (powPoly 128 (period / p) 2 1) v0 ≠ v0 := by decide!

theorem v0_returns : step^[period] v0 = v0 := by
  rw [iterate_eq_evalPoly charPoly_annihilates 128 period (by decide), powPoly_period]
  exact evalPoly_one 127 v0

theorem v0_cofactor : ∀ p ∈ periodFactors, step^[period / p] v0 ≠ v0 := by
  intro p hp
  rw [iterate_eq_evalPoly charPoly_annihilates 128 (period / p)
    (lt_of_le_of_lt (Nat.div_le_self _ _) (by decide))]
  exact powPoly_cofactors p hp

theorem minimalPeriod_v0 : Function.minimalPeriod step v0 = period :=
  minimalPeriod_v0_of v0_returns v0_cofactor

/-- C7: the generator has period `2^128 - 1`: from every state `(s0, s1)` of 64-bit words that
are not both zero, `2^128 - 1` applications of the `xoroshiro128_next` state transition lead
back to `(s0, s1)`, and no smaller positive number of applications does. -/
theorem C7_period (s0 s1 : Nat) (h0 : s0 < 2 ^ 64) (h1 : s1 < 2 ^ 64)
    (hne : ¬(s0 = 0 ∧ s1 = 0)) :
    (fun s => (xoroshiro128_next s).2)^[2 ^ 128 - 1] (s0, s1) = (s0, s1) ∧
    ∀ n : Nat, 0 < n → n < 2 ^ 128 - 1 →
      (fun s => (xoroshiro128_next s).2)^[n] (s0, s1) ≠ (s0, s1) := by
  have hne' : (s0, s1) ≠ (0, 0) := fun h => hne ⟨congrArg Prod.fst h, congrArg Prod.snd h⟩
  have hmin : Function.minimalPeriod step (s0, s1) = period :=
    minimalPeriod_eq_period minimalPeriod_v0 ⟨h0, h1⟩ hne'
  refine ⟨?_, fun n hpos hlt => ?_⟩
  · have := Function.isPeriodicPt_minimalPeriod step (s0, s1)
    rw [hmin] at this
    exact this
  · have hlt' : n < Function.minimalPeriod step (s0, s1) := by
      rw [hmin]
      exact hlt
    exact Function.not_isPeriodicPt_of_pos_of_lt_minimalPeriod (Nat.pos_iff_ne_zero.1 hpos) hlt'

/-- Witness for C7 at the seed `(1, 2)`. -/
theorem C7_period_witness :
    (fun s => (xoroshiro128_next s).2)^[2 ^ 128 - 1] (1, 2) = (1, 2) ∧
    ∀ n : Nat, 0 < n → n < 2 ^ 128 - 1 →
      (fun s => (xoroshiro128_next s).2)^[n] (1, 2) ≠ (1, 2) :=
  C7_period 1 2 (by decide) (by decide) (by decide)


/-! ### The jump -/

theorem xor2_assoc (a b c : Nat × Nat) : xor2 (xor2 a b) c = xor2 a (xor2 b c) := by
  simp only [xor2, Nat.xor_assoc]

theorem jump_word_spec (J n : Nat) : ∀ (b : Nat) (acc s : Nat × Nat),
    jump_word J n b (acc, s) = (xor2 acc (evalPoly n (J >>> b) s), step^[n] s) := by
  induction n with
  | zero =>
    intro b acc s
    simp only [jump_word, evalPoly, xor2_zero, Function.iterate_zero, id_eq]
  | succ n ih =>
    intro b acc s
    have e1 : jump_word J (n + 1) b (acc, s) =
        jump_word J n (b + 1) (if J.testBit b then xor2 acc s else acc, step s) := rfl
    have e2 : evalPoly (n + 1) (J >>> b) s =
        xor2 (if (J >>> b).testBit 0 then s else (0, 0))
          (evalPoly n ((J >>> b) / 2) (step s)) := rfl
    have e3 : (J >>> b).testBit 0 = J.testBit b := by
      rw [Nat.testBit_shiftRight, Nat.add_zero]
    have e4 : (J >>> b) / 2 = J >>> (b + 1) := (Nat.shiftRight_succ J b).symm
    rw [e1, ih, e2, e3, e4, Function.iterate_succ_apply, ← xor2_assoc]
    congr 2
    split
    · rfl
    · exact (xor2_zero acc).symm

theorem evalPoly_append (n m : Nat) : ∀ (a b : Nat) (s : Nat × Nat), a < 2 ^ n →
    evalPoly (n + m) (a + 2 ^ n * b) s =
      xor2 (evalPoly n a s) (evalPoly m b (step^[n] s)) := by
  induction n with
  | zero =>
    intro a b s ha
    have : a = 0 := by simpa using ha
    subst this
    simp only [Nat.zero_add, pow_zero, Nat.one_mul, evalPoly, zero_xor2,
      Function.iterate_zero, id_eq]
  | succ n ih =>
    intro a b s ha
    have e0 : n + 1 + m = (n + m) + 1 := by ring
    have e1 : evalPoly ((n + m) + 1) (a + 2 ^ (n + 1) * b) s =
        xor2 (if (a + 2 ^ (n + 1) * b).testBit 0 then s else (0, 0))
          (evalPoly (n + m) ((a + 2 ^ (n + 1) * b) / 2) (step s)) := rfl
    have e2 : evalPoly (n + 1) a s =
        xor2 (if a.testBit 0 then s else (0, 0)) (evalPoly n (a / 2) (step s)) := rfl
    have e3 : (a + 2 ^ (n + 1) * b) / 2 = a / 2 + 2 ^ n * b := by
      rw [pow_succ, Nat.mul_comm (2 ^ n) 2, Nat.mul_assoc,
        Nat.add_mul_div_left _ _ (by norm_num : 0 < 2)]
    have e4 : (a + 2 ^ (n + 1) * b).testBit 0 = a.testBit 0 := by
      rw [Nat.testBit_zero, Nat.testBit_zero, pow_succ, Nat.mul_comm (2 ^ n) 2, Nat.mul_assoc,
        Nat.add_mul_mod_self_left]
    have ha2 : a / 2 < 2 ^ n := by
      rw [pow_succ] at ha
      omega
    rw [e0, e1, e2, e3, e4, ih _ _ _ ha2, Function.iterate_succ_apply, xor2_assoc]

theorem jump_with_eq_evalPoly (J0 J1 : Nat) (h0 : J0 < 2 ^ 64) (st : xoroshiro128_state) :
    (xoroshiro128_jump_with [J0, J1] st).s = evalPoly 128 (J0 + 2 ^ 64 * J1) st.s := by
  show (jump_word J1 64 0 (jump_word J0 64 0 ((0, 0), st.s))).1 = _
  rw [jump_word_spec, jump_word_spec, zero_xor2, Nat.shiftRight_zero, Nat.shiftRight_zero]
  exact (evalPoly_append 64 64 J0 J1 st.s h0).symm

theorem jump_eq_evalPoly (st : xoroshiro128_state) :
    (xoroshiro128_jump st).s = evalPoly 128 jumpPoly st.s :=
  jump_with_eq_evalPoly 0xbeac0467eba5facb 0xd86b048b86aa9922 (by norm_num) st

theorem powPoly_jump : powPoly 65 (2 ^ 64) 2 1 = jumpPoly := by decide!

theorem jumpPoly_v0 : evalPoly 128 jumpPoly v0 = step^[2 ^ 64] v0 := by
  rw [iterate_eq_evalPoly charPoly_annihilates 65 (2 ^ 64) (by norm_num), powPoly_jump]

theorem evalPoly_jumpPoly {s : Nat × Nat} (hs : Word2 s) :
    evalPoly 128 jumpPoly s = step^[2 ^ 64] s := by
  by_cases h : s = (0, 0)
  · rw [h, evalPoly_zero_state, iterate_zero_state]
  · obtain ⟨k, rfl⟩ := orbit_covers minimalPeriod_v0 hs h
    rw [evalPoly_iterate _ _ _ word2_v0, jumpPoly_v0, ← Function.iterate_add_apply,
      ← Function.iterate_add_apply, Nat.add_comm]

theorem iterate_next64_words (n : Nat) (st : xoroshiro128_state) :
    ((fun t => (xoroshiro128_next64 t).2)^[n] st).s = step^[n] st.s := by
  induction n generalizing st with
  | zero => rfl
  | succ n ih =>
    rw [Function.iterate_succ_apply, Function.iterate_succ_apply, ih]
    rfl

/-- C8: for every state, `xoroshiro128_jump` leaves the state words equal to those obtained by
calling `xoroshiro128_next64` exactly `2^64` times from the same starting state. -/
theorem C8_jump_is_2pow64_steps (st : xoroshiro128_state) (h0 : st.s.1 < 2 ^ 64)
    (h1 : st.s.2 < 2 ^ 64) :
    (xoroshiro128_jump st).s = ((fun t => (xoroshiro128_next64 t).2)^[2 ^ 64] st).s := by
  rw [jump_eq_evalPoly, iterate_next64_words]
  exact evalPoly_jumpPoly ⟨h0, h1⟩

/-- Witness for C8 at the seed `(1, 2)`. -/
theorem C8_jump_is_2pow64_steps_witness :
    (xoroshiro128_jump ⟨(1, 2), 0, 0⟩).s =
      ((fun t => (xoroshiro128_next64 t).2)^[2 ^ 64] ⟨(1, 2), 0, 0⟩).s :=
  C8_jump_is_2pow64_steps ⟨(1, 2), 0, 0⟩ (by decide) (by decide)


/-! ### The jump constants are forced by the recurrence -/

theorem evalPoly_v0_surj {s : Nat × Nat} (hs : Word2 s) :
    ∃ q, q < 2 ^ 128 ∧ evalPoly 128 q v0 = s := by
  by_cases h : s = (0, 0)
  · exact ⟨0, by norm_num, by rw [h, evalPoly_zero_poly]⟩
  · obtain ⟨k, hk⟩ := orbit_covers minimalPeriod_v0 hs h
    have hr := rep_pow charPoly_annihilates k k 2 1 1 0 (Nat.lt_two_pow k) rep_x rep_one
    rw [Nat.zero_add, Nat.one_mul] at hr
    exact ⟨_, hr.1, hr.2.trans hk⟩

theorem evalPoly_v0_inj {q1 q2 : Nat} (h1 : q1 < 2 ^ 128) (h2 : q2 < 2 ^ 128)
    (h : evalPoly 128 q1 v0 = evalPoly 128 q2 v0) : q1 = q2 := by
  have key := Finset.inj_on_of_surj_on_of_card_le
    (s := Finset.range (2 ^ 128)) (t := Finset.range (2 ^ 128))
    (fun q _ => enc (evalPoly 128 q v0))
    (fun q _ => Finset.mem_range.2 (enc_lt (word2_evalPoly 128 q word2_v0)))
    (by
      intro t ht
      have ht' : t < 2 ^ 128 := Finset.mem_range.1 ht
      have hw : Word2 (t % 2 ^ 64, t / 2 ^ 64) := by
        refine ⟨Nat.mod_lt _ (by positivity), ?_⟩
        show t / 2 ^ 64 < 2 ^ 64
        rw [Nat.div_lt_iff_lt_mul (by positivity), ← pow_add]
        exact ht'
      obtain ⟨q, hq, he⟩ := evalPoly_v0_surj hw
      refine ⟨q, Finset.mem_range.2 hq, ?_⟩
      show enc (evalPoly 128 q v0) = t
      rw [he]
      show t % 2 ^ 64 + 2 ^ 64 * (t / 2 ^ 64) = t
      exact Nat.mod_add_div t (2 ^ 64))
    (le_refl _)
  exact key (Finset.mem_range.2 h1) (Finset.mem_range.2 h2) (congrArg enc h)

/-- Any two 64-bit constants with which the jump loop carries `v0` to `step^[2^64] v0` are
the two constants of `JUMP`: the table is determined by the recurrence. -/
theorem jump_constants_forced (J0 J1 : Nat) (h0 : J0 < 2 ^ 64) (h1 : J1 < 2 ^ 64)
    (h : (xoroshiro128_jump_with [J0, J1] ⟨v0, 0, 0⟩).s = step^[2 ^ 64] v0) :
    [J0, J1] = JUMP := by
  rw [jump_with_eq_evalPoly J0 J1 h0, ← jumpPoly_v0] at h
  have hlt : J0 + 2 ^ 64 * J1 < 2 ^ 128 := enc_lt (s := (J0, J1)) ⟨h0, h1⟩
  have hq := evalPoly_v0_inj hlt (by decide) h
  have := enc_inj (s := (J0, J1)) (t := (0xbeac0467eba5facb, 0xd86b048b86aa9922))
    ⟨h0, h1⟩ ⟨by norm_num, by norm_num⟩ hq
  rw [Prod.mk.injEq] at this
  rw [this.1, this.2]
  rfl

/-! ### The Gaussian cache -/

/-- C10: out-of-domain parameters are rejected before any draw. `legacy_gamma` and
`legacy_standard_gamma` with shape `0`, `legacy_beta` with `b = -1` and
`legacy_negative_binomial` with `p = 0` each fail with `DomainError` instead of returning a
number, and the augmented state (bit generator with its state words and spare 32-bit word,
spare Gaussian and its flag) is returned unchanged. -/
theorem C10_domain_errors {G D : Type} [LinearOrderedField D] (B : sampler_bodies G D)
    (st : aug_bitgen_t G D) :
    (∀ scale : D, legacy_gamma B st 0 scale = (Except.error sampler_error.DomainError, st)) ∧
    legacy_standard_gamma B st 0 = (Except.error sampler_error.DomainError, st) ∧
    (∀ a : D, legacy_beta B st a (-1) = (Except.error sampler_error.DomainError, st)) ∧
    (∀ n : D, legacy_negative_binomial B st n 0 =
      (Except.error sampler_error.DomainError, st)) := by
  refine ⟨fun scale => ?_, ?_, fun a => ?_, fun n => ?_⟩
  · simp [legacy_gamma]
  · simp [legacy_standard_gamma]
  · have : ¬((0 : D) < -1) := by
      simp only [not_lt, Left.neg_nonpos_iff]
      exact zero_le_one
    simp [legacy_beta, this]
  · simp [legacy_negative_binomial]


/-! ### Rotation, bit by bit -/

theorem rotl_testBit (x k j : Nat) (hx : x < 2 ^ 64) (hk : k ≤ 64) (hj : j < 64) :
    (rotl x k).testBit j = x.testBit ((j + 64 - k) % 64) := by
  unfold rotl
  simp only [Nat.testBit_or, Nat.testBit_mod_two_pow, Nat.testBit_shiftLeft,
    Nat.testBit_shiftRight]
  by_cases h : k ≤ j
  · have h1 : x.testBit (64 - k + j) = false := testBit_ge64 x _ hx (by omega)
    have h2 : (j + 64 - k) % 64 = j - k := by omega
    simp [h1, h2, h, hj]
  · have h2 : (j + 64 - k) % 64 = 64 - k + j := by omega
    simp [h2, h]

theorem rotl_testBit_rotated (x k i : Nat) (hx : x < 2 ^ 64) (hk : k ≤ 64) (hi : i < 64) :
    (rotl x k).testBit ((i + k) % 64) = x.testBit i := by
  rw [rotl_testBit x k _ hx hk (Nat.mod_lt _ (by norm_num))]
  congr 1
  omega

theorem rotl_rotl_inv (x k : Nat) (hx : x < 2 ^ 64) (hk : k ≤ 64) :
    rotl (rotl x k) (64 - k) = x := by
  apply Nat.eq_of_testBit_eq
  intro j
  by_cases hj : j < 64
  · rw [rotl_testBit _ _ j (rotl_lt x k hx) (Nat.sub_le _ _) hj]
    have e : (j + 64 - (64 - k)) % 64 = (j + k) % 64 := by
      congr 1
      omega
    rw [e]
    exact rotl_testBit_rotated x k j hx hk hj
  · rw [testBit_ge64 _ j (rotl_lt _ _ (rotl_lt x k hx)) (by omega),
      testBit_ge64 x j hx (by omega)]

theorem rotr_eq_rotl (x k : Nat) (hk : k ≤ 64) : rotr x k = rotl x (64 - k) := by
  unfold rotr rotl
  rw [Nat.sub_sub_self hk, Nat.or_comm]

theorem rotr_lt (x k : Nat) (hx : x < 2 ^ 64) (hk : k ≤ 64) : rotr x k < 2 ^ 64 := by
  rw [rotr_eq_rotl x k hk]
  exact rotl_lt _ _ hx

theorem rotr_rotl (x k : Nat) (hx : x < 2 ^ 64) (hk : k ≤ 64) : rotr (rotl x k) k = x := by
  rw [rotr_eq_rotl _ k hk]
  exact rotl_rotl_inv x k hx hk

theorem rotl_rotr (x k : Nat) (hx : x < 2 ^ 64) (hk : k ≤ 64) : rotl (rotr x k) k = x := by
  rw [rotr_eq_rotl _ k hk]
  have := rotl_rotl_inv x (64 - k) hx (Nat.sub_le _ _)
  rwa [Nat.sub_sub_self hk] at this

theorem xor_cancel3 (a t u : Nat) : a ^^^ t ^^^ u ^^^ t ^^^ u = a := by
  apply Nat.eq_of_testBit_eq
  intro i
  simp only [Nat.testBit_xor]
  cases a.testBit i <;> cases t.testBit i <;> cases u.testBit i <;> rfl

theorem xor_cancel_right' (a b : Nat) : a ^^^ b ^^^ b = a := by
  rw [Nat.xor_assoc, Nat.xor_self, Nat.xor_zero]

/-! ### The transition is a bijection -/

theorem step_pred_lt (s : Nat × Nat) (hs : Word2 s) :
    Word2 (rotr (s.1 ^^^ rotr s.2 36 ^^^ ((rotr s.2 36 <<< 14) % 2 ^ 64)) 55,
      rotr s.2 36 ^^^ rotr (s.1 ^^^ rotr s.2 36 ^^^ ((rotr s.2 36 <<< 14) % 2 ^ 64)) 55) := by
  have ht : rotr s.2 36 < 2 ^ 64 := rotr_lt _ _ hs.2 (by norm_num)
  have hA : s.1 ^^^ rotr s.2 36 ^^^ ((rotr s.2 36 <<< 14) % 2 ^ 64) < 2 ^ 64 :=
    Nat.xor_lt_two_pow (Nat.xor_lt_two_pow hs.1 ht) (Nat.mod_lt _ (by positivity))
  have h0 := rotr_lt _ 55 hA (by norm_num)
  exact ⟨h0, Nat.xor_lt_two_pow ht h0⟩

theorem step_of_pred (s : Nat × Nat) (hs : Word2 s) :
    step (rotr (s.1 ^^^ rotr s.2 36 ^^^ ((rotr s.2 36 <<< 14) % 2 ^ 64)) 55,
      rotr s.2 36 ^^^ rotr (s.1 ^^^ rotr s.2 36 ^^^ ((rotr s.2 36 <<< 14) % 2 ^ 64)) 55) = s := by
  have ht : rotr s.2 36 < 2 ^ 64 := rotr_lt _ _ hs.2 (by norm_num)
  have hA : s.1 ^^^ rotr s.2 36 ^^^ ((rotr s.2 36 <<< 14) % 2 ^ 64) < 2 ^ 64 :=
    Nat.xor_lt_two_pow (Nat.xor_lt_two_pow hs.1 ht) (Nat.mod_lt _ (by positivity))
  simp only [step, xoroshiro128_next]
  rw [xor_cancel_right', rotl_rotr _ 55 hA (by norm_num), rotl_rotr _ 36 hs.2 (by norm_num),
    xor_cancel3]

theorem pred_of_step (s : Nat × Nat) (hs : Word2 s) :
    (rotr ((step s).1 ^^^ rotr (step s).2 36 ^^^ ((rotr (step s).2 36 <<< 14) % 2 ^ 64)) 55,
      rotr (step s).2 36 ^^^
        rotr ((step s).1 ^^^ rotr (step s).2 36 ^^^ ((rotr (step s).2 36 <<< 14) % 2 ^ 64)) 55)
      = s := by
  have ht : s.2 ^^^ s.1 < 2 ^ 64 := Nat.xor_lt_two_pow hs.2 hs.1
  have e2 : (step s).2 = rotl (s.2 ^^^ s.1) 36 := rfl
  have e1 : (step s).1 =
      rotl s.1 55 ^^^ (s.2 ^^^ s.1) ^^^ (((s.2 ^^^ s.1) <<< 14) % 2 ^ 64) := rfl
  rw [e2, rotr_rotl _ 36 ht (by norm_num), e1, xor_cancel3, rotr_rotl _ 55 hs.1 (by norm_num),
    xor_cancel_right']

theorem step_injective {a b : Nat × Nat} (ha : Word2 a) (hb : Word2 b) (h : step a = step b) :
    a = b := by
  rw [← pred_of_step a ha, ← pred_of_step b hb, h]

theorem step_eq_zero_iff {s : Nat × Nat} (hs : Word2 s) : step s = (0, 0) ↔ s = (0, 0) := by
  constructor
  · intro h
    exact step_injective hs word2_zero (h.trans step_zero.symm)
  · intro h
    rw [h]
    exact step_zero


theorem iterate_ne_zero {s : Nat × Nat} (hs : Word2 s) (hne : s ≠ (0, 0)) (n : Nat) :
    step^[n] s ≠ (0, 0) := by
  induction n with
  | zero => exact hne
  | succ n ih =>
    rw [Function.iterate_succ_apply']
    exact fun h => ih ((step_eq_zero_iff (word2_iterate hs n)).1 h)

theorem run64_zero_state (n : Nat) (h : Int) (u : Nat) :
    run64 n ⟨(0, 0), h, u⟩ = (List.replicate n 0, ⟨(0, 0), h, u⟩) := by
  induction n with
  | zero => rfl
  | succ n ih =>
    have e0 : xoroshiro128_next (0, 0) = (0, (0, 0)) := by decide
    have e : xoroshiro128_next64 ⟨(0, 0), h, u⟩ = (0, ⟨(0, 0), h, u⟩) := by
      simp only [xoroshiro128_next64, e0]
    simp only [run64, e, ih, List.replicate_succ]

/-- C11: the all-zero state is the only state the step maps to all-zero. For all 64-bit words
`s0, s1` the state words after `xoroshiro128_next` are both zero if and only if `s0` and `s1`
were both zero; hence from a nonzero seed no number of draws reaches the all-zero state, while
the all-zero state is absorbing and every `xoroshiro128_next64` call from it returns 0. -/
theorem C11_zero_state_isolated :
    (∀ s0 s1 : Nat, s0 < 2 ^ 64 → s1 < 2 ^ 64 →
      (((xoroshiro128_next (s0, s1)).2.1 = 0 ∧ (xoroshiro128_next (s0, s1)).2.2 = 0) ↔
        (s0 = 0 ∧ s1 = 0))) ∧
    (∀ s0 s1 : Nat, s0 < 2 ^ 64 → s1 < 2 ^ 64 → ¬(s0 = 0 ∧ s1 = 0) →
      ∀ n : Nat, (fun s => (xoroshiro128_next s).2)^[n] (s0, s1) ≠ (0, 0)) ∧
    (∀ (n : Nat) (h : Int) (u : Nat),
      (run64 n ⟨(0, 0), h, u⟩).1 = List.replicate n 0 ∧
      (run64 n ⟨(0, 0), h, u⟩).2.s = (0, 0)) := by
  refine ⟨fun s0 s1 h0 h1 => ?_, fun s0 s1 h0 h1 hne n => ?_, fun n h u => ?_⟩
  · have key := step_eq_zero_iff (s := (s0, s1)) ⟨h0, h1⟩
    constructor
    · intro hz
      have := key.1 (Prod.ext hz.1 hz.2)
      exact ⟨congrArg Prod.fst this, congrArg Prod.snd this⟩
    · intro hz
      have := key.2 (Prod.ext hz.1 hz.2)
      exact ⟨congrArg Prod.fst this, congrArg Prod.snd this⟩
  · exact iterate_ne_zero (s := (s0, s1)) ⟨h0, h1⟩
      (fun h => hne ⟨congrArg Prod.fst h, congrArg Prod.snd h⟩) n
  · rw [run64_zero_state]
    exact ⟨rfl, rfl⟩

/-- C12: the state transition of `xoroshiro128_next` is a bijection on pairs of 64-bit words:
two different states never step to the same state, and every state `(s0', s1')` has a
predecessor among the pairs of 64-bit words, namely `t = rotr(s1', 36)`,
`s0 = rotr(s0' xor t xor (t << 14), 55)`, `s1 = t xor s0`. -/
theorem C12_step_bijective :
    (∀ a0 a1 b0 b1 : Nat, a0 < 2 ^ 64 → a1 < 2 ^ 64 → b0 < 2 ^ 64 → b1 < 2 ^ 64 →
      (xoroshiro128_next (a0, a1)).2 = (xoroshiro128_next (b0, b1)).2 →
        a0 = b0 ∧ a1 = b1) ∧
    (∀ s0' s1' : Nat, s0' < 2 ^ 64 → s1' < 2 ^ 64 →
      rotr (s0' ^^^ rotr s1' 36 ^^^ ((rotr s1' 36 <<< 14) % 2 ^ 64)) 55 < 2 ^ 64 ∧
      rotr s1' 36 ^^^ rotr (s0' ^^^ rotr s1' 36 ^^^ ((rotr s1' 36 <<< 14) % 2 ^ 64)) 55
        < 2 ^ 64 ∧
      (xoroshiro128_next
        (rotr (s0' ^^^ rotr s1' 36 ^^^ ((rotr s1' 36 <<< 14) % 2 ^ 64)) 55,
          rotr s1' 36 ^^^
            rotr (s0' ^^^ rotr s1' 36 ^^^ ((rotr s1' 36 <<< 14) % 2 ^ 64)) 55)).2
        = (s0', s1')) := by
  refine ⟨fun a0 a1 b0 b1 ha0 ha1 hb0 hb1 h => ?_, fun s0' s1' h0 h1 => ?_⟩
  · have := step_injective (a := (a0, a1)) (b := (b0, b1)) ⟨ha0, ha1⟩ ⟨hb0, hb1⟩ h
    exact ⟨congrArg Prod.fst this, congrArg Prod.snd this⟩
  · have hw := step_pred_lt (s0', s1') ⟨h0, h1⟩
    exact ⟨hw.1, hw.2, step_of_pred (s0', s1') ⟨h0, h1⟩⟩

/-- C13: `xoroshiro128_next64` changes only the state words: `has_uint32` and `uinteger` are
the same after the call as before. So a `xoroshiro128_next64` call made between a
`xoroshiro128_next32` cache miss and the following `xoroshiro128_next32` leaves the spare in
place: that following call returns the low 32 bits of the draw made before the
`xoroshiro128_next64` call, makes no draw of its own and clears the flag. -/
theorem C13_next64_keeps_cache (st : xoroshiro128_state) :
    (xoroshiro128_next64 st).2.has_uint32 = st.has_uint32 ∧
    (xoroshiro128_next64 st).2.uinteger = st.uinteger ∧
    (st.has_uint32 = 0 →
      (xoroshiro128_next32 (xoroshiro128_next64 (xoroshiro128_next32 st).2).2).1
        = (xoroshiro128_next st.s).1 % 2 ^ 32 ∧
      (xoroshiro128_next32 (xoroshiro128_next64 (xoroshiro128_next32 st).2).2).2.s
        = (xoroshiro128_next64 (xoroshiro128_next32 st).2).2.s ∧
      (xoroshiro128_next64 (xoroshiro128_next32 st).2).2.s
        = (xoroshiro128_next (xoroshiro128_next st.s).2).2 ∧
      (xoroshiro128_next32 (xoroshiro128_next64 (xoroshiro128_next32 st).2).2).2.has_uint32
        = 0) := by
  refine ⟨rfl, rfl, fun h => ?_⟩
  rw [next32_miss st h]
  have hh : (xoroshiro128_next64
      (hi32 (xoroshiro128_next st.s).1,
        ({ s := step st.s, has_uint32 := 1, uinteger := lo32 (xoroshiro128_next st.s).1 } :
          xoroshiro128_state)).2).2.has_uint32 ≠ 0 := by
    show (1 : Int) ≠ 0
    decide
  rw [next32_hit _ hh]
  exact ⟨rfl, rfl, rfl, rfl⟩

/-- C14: for every 64-bit `x` and every `k` with `1 ≤ k ≤ 63`, `rotl(x, k)` is the left
rotation of `x` by `k` bits: it is a 64-bit word, its bit `(i + k) mod 64` is bit `i` of `x`
for every `i` in `0 .. 63`, and `rotl(rotl(x, k), 64 - k) = x`. The shifts inside `rotl` are
in range exactly for `1 ≤ k ≤ 63` (at `k = 0` the right shift would be by 64), and
`xoroshiro128_next` rotates by 55 and 36 only, so with the shifts checked it always returns,
with the same value. -/
theorem C14_rotl_is_rotation :
    (∀ x k : Nat, x < 2 ^ 64 → 1 ≤ k → k ≤ 63 →
      rotl x k < 2 ^ 64 ∧
      (∀ i : Nat, i < 64 → (rotl x k).testBit ((i + k) % 64) = x.testBit i) ∧
      rotl (rotl x k) (64 - k) = x) ∧
    (∀ x k : Nat, rotl_checked x k = some (rotl x k) ↔ (1 ≤ k ∧ k ≤ 63)) ∧
    (∀ x : Nat, rotl_checked x 0 = none) ∧
    (∀ s : Nat × Nat, xoroshiro128_next_checked s = some (xoroshiro128_next s)) ∧
    (1 ≤ 64 - 55 ∧ 64 - 55 ≤ 63 ∧ 1 ≤ 64 - 36 ∧ 64 - 36 ≤ 63) := by
  refine ⟨fun x k hx _ hk => ?_, fun x k => ?_, fun x => rfl, fun s => rfl, by decide⟩
  · exact ⟨rotl_lt x k hx,
      fun i hi => rotl_testBit_rotated x k i hx (by omega) hi,
      rotl_rotl_inv x k hx (by omega)⟩
  · unfold rotl_checked
    constructor
    · intro h
      by_cases hc : k < 64 ∧ 64 - k < 64
      · omega
      · rw [if_neg hc] at h
        exact absurd h (by simp)
    · intro h
      rw [if_pos (by omega)]

end Randomgen
